import Mathlib

/-!
# Verification of the rstml RSX parser (`src/parser.rs`)

Shallow embedding of the backtracking recursive-descent parser in
`src/parser.rs`.  The `syn::ParseStream` cursor becomes explicit state
passing over a `List Tok`: every rule takes the current token list and
returns its result together with the token list it leaves behind, so a
rule that consumes a prefix before failing (as `syn`'s sequenced
`input.parse::<..>()?` calls do) leaves that prefix consumed in the
returned list.  A *fork* (`input.fork()`) is modelled by running a rule
and discarding the returned list.  The looping rules (`parse`, `node`,
`element`'s child loop, the attribute-token scan and the attribute-list
loop) take an explicit fuel argument and return `none` when it runs out;
fuel sufficiency is proved below (a linear bound in the input length).

Host-language payloads are abstracted as in the spec's scope section:
a literal expression is one `Tok.lit` token (plus `true`/`false`
identifiers, which `syn::Lit` also accepts), a path expression is one
non-keyword identifier, and the interior of a brace-delimited group is
carried opaquely (the parser only delimits it, never interprets it).
`syn` source positions become a `Nat` span per token; an error carries
`some span` for the token it points at, or `none` for `syn`'s
end-of-input position.
-/

namespace Rstml

/-- Delimiter of a `proc_macro2` group token. -/
inductive Delim where
| brace
| paren
| bracket

/-- One `proc_macro2::TokenTree`: punctuation, identifier (with a flag
recording whether it is a reserved word, which `syn`'s strict `Ident`
parse rejects and `Ident::parse_any` accepts), literal, or delimited
group with an opaque interior.  Each token carries its source span. -/
inductive Tok where
| punct (c : Char) (sp : Nat)
| ident (nm : String) (kw : Bool) (sp : Nat)
| lit (v : String) (sp : Nat)
| group (d : Delim) (inner : List Tok) (sp : Nat)

/-- Span of a token. -/
def Tok.span : Tok → Nat
| .punct _ sp => sp
| .ident _ _ sp => sp
| .lit _ sp => sp
| .group _ _ sp => sp

/-- A positioned parse error (`syn::Error`): `span = none` is `syn`'s
end-of-input position. -/
structure ParseErr where
  span : Option Nat
  msg : String

/-- Error at a concrete token. -/
def errAt (t : Tok) (msg : String) : ParseErr := ⟨some t.span, msg⟩

/-- Error at end of input. -/
def eofErr (msg : String) : ParseErr := ⟨none, msg⟩

/-- A parsed identifier (`syn::Ident`): name, reserved-word flag, span. -/
structure Ident where
  nm : String
  kw : Bool
  sp : Nat

/-- The `NodeType` enum of the node module. -/
inductive NodeType where
| element
| attribute
| text
| block

/-- A parsed value occupying a node's `node_value` field (`syn::Expr`,
restricted to the fragment this grammar can produce): a literal, a
single-segment path, or an opaque brace-block payload. -/
inductive Expr where
| lit (v : String)
| path (nm : String)
| block (inner : List Tok)

/-- The `Node` type of the node module. -/
inductive Node where
| mk (node_name : String) (node_value : Option Expr) (node_type : NodeType)
    (attributes : List Node) (child_nodes : List Node)

/-- Projection: `node_name`. -/
def Node.node_name : Node → String
| .mk x _ _ _ _ => x

/-- Projection: `node_value`. -/
def Node.node_value : Node → Option Expr
| .mk _ x _ _ _ => x

/-- Projection: `node_type`. -/
def Node.node_type : Node → NodeType
| .mk _ _ x _ _ => x

/-- Projection: `attributes`. -/
def Node.attributes : Node → List Node
| .mk _ _ _ x _ => x

/-- Projection: `child_nodes`. -/
def Node.child_nodes : Node → List Node
| .mk _ _ _ _ x => x

/-- `node.child_nodes = vec![]` after the flattening pass moved the
children out (lines 60-64 of `parser.rs`). -/
def Node.clearChildren : Node → Node
| .mk a b c d _ => .mk a b c d []

/-- The private `Tag` struct (lines 11-15). -/
structure Tag where
  ident : Ident
  attributes : List Node
  selfclosing : Bool

/-- Whether an `Except` result is a success (`Result::is_ok`). -/
def exOk {α : Type} : Except ParseErr α → Bool
| .ok _ => true
| .error _ => false

/-- `input.parse::<Token![c]>()`: consume one punctuation token, failing
without consuming otherwise. -/
def parsePunct (c : Char) (ts : List Tok) : Except ParseErr Unit × List Tok :=
  match ts with
  | [] => (.error (eofErr "unexpected end of input"), [])
  | t :: rest =>
    match t with
    | .punct c2 _ => if c2 = c then (.ok (), rest) else (.error (errAt t "expected punctuation"), t :: rest)
    | _ => (.error (errAt t "expected punctuation"), t :: rest)

/-- `input.parse::<Ident>()`: a non-reserved identifier (line 132). -/
def parseIdent (ts : List Tok) : Except ParseErr Ident × List Tok :=
  match ts with
  | [] => (.error (eofErr "expected identifier"), [])
  | t :: rest =>
    match t with
    | .ident nm kw sp => if kw then (.error (errAt t "expected identifier"), t :: rest) else (.ok ⟨nm, kw, sp⟩, rest)
    | _ => (.error (errAt t "expected identifier"), t :: rest)

/-- `input.call(Ident::parse_any)`: any identifier, reserved words
included (line 195). -/
def parseIdentAny (ts : List Tok) : Except ParseErr Ident × List Tok :=
  match ts with
  | [] => (.error (eofErr "expected identifier"), [])
  | t :: rest =>
    match t with
    | .ident nm kw sp => (.ok ⟨nm, kw, sp⟩, rest)
    | _ => (.error (errAt t "expected identifier"), t :: rest)

/-- `input.parse::<ExprLit>()` (line 211): one literal token; `syn::Lit`
also accepts the boolean identifiers `true` and `false`. -/
def parseLit (ts : List Tok) : Except ParseErr Expr × List Tok :=
  match ts with
  | [] => (.error (eofErr "expected literal"), [])
  | t :: rest =>
    match t with
    | .lit v _ => (.ok (.lit v), rest)
    | .ident nm _ _ =>
      if nm = "true" ∨ nm = "false" then (.ok (.lit nm), rest)
      else (.error (errAt t "expected literal"), t :: rest)
    | _ => (.error (errAt t "expected literal"), t :: rest)

/-- `input.parse::<Expr>()` in attribute-value position (line 201),
restricted to the modelled host-expression fragment: a literal (or
boolean identifier) or a single-segment path; a brace group parses as a
block expression.  Compound host expressions are outside the parser's
responsibility (spec scope section). -/
def parseExprValue (ts : List Tok) : Except ParseErr Expr × List Tok :=
  match ts with
  | [] => (.error (eofErr "expected expression"), [])
  | t :: rest =>
    match t with
    | .lit v _ => (.ok (.lit v), rest)
    | .ident nm kw _ =>
      if nm = "true" ∨ nm = "false" then (.ok (.lit nm), rest)
      else if kw then (.error (errAt t "expected expression"), t :: rest)
      else (.ok (.path nm), rest)
    | .group .brace inner _ => (.ok (.block inner), rest)
    | _ => (.error (errAt t "expected expression"), t :: rest)

/-- `block_expr` (lines 234-240): consume one `TokenTree`, then re-parse
that single token as an `ExprBlock`; only a brace-delimited group
qualifies, and its interior is carried through opaquely.  Note the
`TokenTree` is consumed even when the `ExprBlock` re-parse then fails. -/
def block_expr (ts : List Tok) : Except ParseErr Expr × List Tok :=
  match ts with
  | [] => (.error (eofErr "expected expression"), [])
  | t :: rest =>
    match t with
    | .group .brace inner _ => (.ok (.block inner), rest)
    | _ => (.error (errAt t "expected curly braces"), rest)

/-- The `text` rule (lines 210-220). -/
def text (ts : List Tok) : Except ParseErr Node × List Tok :=
  match parseLit ts with
  | (.error e, ts1) => (.error e, ts1)
  | (.ok v, ts1) => (.ok (Node.mk "#text" (some v) .text [] []), ts1)

/-- The `block` rule (lines 222-232). -/
def block (ts : List Tok) : Except ParseErr Node × List Tok :=
  match block_expr ts with
  | (.error e, ts1) => (.error e, ts1)
  | (.ok v, ts1) => (.ok (Node.mk "#block" (some v) .block [] []), ts1)

/-- `input.parse::<Option<Token![/]>>()` (line 154): peek-driven, so it
consumes the slash when present and never fails. -/
def peekSlash (ts : List Tok) : Bool × List Tok :=
  match ts with
  | .punct '/' _ :: rest => (true, rest)
  | _ => (false, ts)

/-- `tag_open_end` (lines 153-158).  When a slash is present but not
followed by `>`, the slash stays consumed (the `Option<Token![/]>` parse
committed first) — the caller catches the error on the real cursor. -/
def tag_open_end (ts : List Tok) : Except ParseErr Bool × List Tok :=
  match parsePunct '>' (peekSlash ts).2 with
  | (.ok _, ts2) => (.ok (peekSlash ts).1, ts2)
  | (.error e, ts2) => (.error e, ts2)

/-- `tag_close` (lines 160-167): `<` `/` identifier `>`. -/
def tag_close (ts : List Tok) : Except ParseErr Ident × List Tok :=
  match parsePunct '<' ts with
  | (.error e, ts1) => (.error e, ts1)
  | (.ok _, ts1) =>
    match parsePunct '/' ts1 with
    | (.error e, ts2) => (.error e, ts2)
    | (.ok _, ts2) =>
      match parseIdent ts2 with
      | (.error e, ts3) => (.error e, ts3)
      | (.ok id, ts3) =>
        match parsePunct '>' ts3 with
        | (.error e, ts4) => (.error e, ts4)
        | (.ok _, ts4) => (.ok id, ts4)

/-- Head-of-stream test used for `input.peek(token::Brace)` (line 198). -/
def peekBrace (ts : List Tok) : Bool :=
  match ts with
  | .group .brace _ _ :: _ => true
  | _ => false

/-- The `attribute` rule (lines 194-208): an `Ident::parse_any` key,
then an optional `=` (peek-driven) followed by a value — a block
expression when the next token is a brace group, a plain expression
otherwise. -/
def «attribute» (ts : List Tok) : Except ParseErr (String × Option Expr) × List Tok :=
  match parseIdentAny ts with
  | (.error e, ts1) => (.error e, ts1)
  | (.ok key, ts1) =>
    match ts1 with
    | .punct '=' _ :: ts2 =>
      match (if peekBrace ts2 then block_expr ts2 else parseExprValue ts2) with
      | (.error e, ts3) => (.error e, ts3)
      | (.ok v, ts3) => (.ok (key.nm, some v), ts3)
    | _ => (.ok (key.nm, none), ts1)

/-- The while loop of `attributes` (lines 175-189): trial-parse an
attribute on a fork; on trial success parse it for real, push the node,
and stop early when the bounded range is exhausted. -/
def attrLoop : Nat → List Tok → Option (Except ParseErr (List Node) × List Tok)
| 0, _ => none
| fuel+1, ts =>
  match («attribute» ts).1 with
  | .error _ => some (.ok [], ts)
  | .ok _ =>
    match «attribute» ts with
    | (.error e, ts1) => some (.error e, ts1)
    | (.ok (key, value), ts1) =>
      let nd := Node.mk key value .attribute [] []
      if ts1.isEmpty then some (.ok [nd], ts1)
      else
        match attrLoop fuel ts1 with
        | none => none
        | some (.error e, ts2) => some (.error e, ts2)
        | some (.ok ns, ts2) => some (.ok (nd :: ns), ts2)

/-- The `attributes` rule (lines 169-192): empty range short-circuit,
then the attribute loop. -/
def attributes (fuel : Nat) (ts : List Tok) : Option (Except ParseErr (List Node) × List Tok) :=
  if ts.isEmpty then some (.ok [], ts) else attrLoop fuel ts

/-- `parser.parse2(attributes ...)` (lines 143-144): run `attributes`
over the detached attribute-token buffer; `syn::parse::Parser::parse2`
rejects a buffer that was not fully consumed, positioning the error at
the first leftover token. -/
def parse2Attrs (fuel : Nat) (buf : List Tok) : Option (Except ParseErr (List Node)) :=
  match attributes fuel buf with
  | none => none
  | some (.error e, _) => some (.error e)
  | some (.ok ns, rest) =>
    match rest with
    | [] => some (.ok ns)
    | t :: _ => some (.error (errAt t "unexpected token"))

/-- The collection loop of `tag_open` (lines 134-141): try
`tag_open_end` on the real cursor each round (a failed attempt that
consumed a stray `/` leaves it consumed, faithful to `syn`), otherwise
push one `TokenTree` into the attribute buffer. -/
def attrScan : Nat → List Tok → Option (Except ParseErr (List Tok × Bool) × List Tok)
| 0, _ => none
| fuel+1, ts =>
  match tag_open_end ts with
  | (.ok sl, ts1) => some (.ok ([], sl), ts1)
  | (.error _, ts1) =>
    match ts1 with
    | [] => some (.error (eofErr "unexpected end of input"), [])
    | t :: rest =>
      match attrScan fuel rest with
      | none => none
      | some (.error e, ts2) => some (.error e, ts2)
      | some (.ok (buf, sl), ts2) => some (.ok (t :: buf, sl), ts2)

/-- The `tag_open` rule (lines 130-151): `<`, a strict identifier, the
attribute-token scan up to the tag terminator, then the detached
attribute sub-parse over the collected buffer. -/
def tag_open : Nat → List Tok → Option (Except ParseErr Tag × List Tok)
| 0, _ => none
| fuel+1, ts =>
  match parsePunct '<' ts with
  | (.error e, ts1) => some (.error e, ts1)
  | (.ok _, ts1) =>
    match parseIdent ts1 with
    | (.error e, ts2) => some (.error e, ts2)
    | (.ok id, ts2) =>
      match attrScan fuel ts2 with
      | none => none
      | some (.error e, ts3) => some (.error e, ts3)
      | some (.ok (buf, sl), ts3) =>
        match parse2Attrs fuel buf with
        | none => none
        | some (.error e) => some (.error e, ts3)
        | some (.ok attrs) => some (.ok ⟨id, attrs, sl⟩, ts3)

/-- `has_child_nodes` (lines 105-128): error at the open tag's name on
end of input; a forked close-tag trial distinguishes a matching close
tag (stop), a mismatched close tag (error at its name), or a child. -/
def has_child_nodes (tag : Tag) (ts : List Tok) : Except ParseErr Bool :=
  if ts.isEmpty then .error ⟨some tag.ident.sp, "open tag has no corresponding close tag"⟩
  else
    match (tag_close ts).1 with
    | .ok cid =>
      if tag.ident.nm = cid.nm then .ok false
      else .error ⟨some cid.sp, "close tag has no corresponding open tag"⟩
    | .error _ => .ok true

/-- The flattening reshape of `node` (lines 59-68): with `flatten` on,
a finished node is followed by its (already recursively flattened)
children, its own `child_nodes` cleared. -/
def nodeReshape (fl : Bool) (n : Node) : List Node :=
  if fl then n.clearChildren :: n.child_nodes else [n]

mutual

/-- The dispatcher `node` (lines 50-71): trial `text` on a fork, else
trial `block` on a fork, else run `element` on the real cursor; the
winning alternative's result goes through the flattening reshape. -/
def node (fl : Bool) : Nat → List Tok → Option (Except ParseErr (List Node) × List Tok)
| 0, _ => none
| fuel+1, ts =>
  match
    (if exOk (text ts).1 then some (text ts)
     else if exOk (block ts).1 then some (block ts)
     else element fl fuel ts) with
  | none => none
  | some (.error e, ts1) => some (.error e, ts1)
  | some (.ok nd, ts1) => some (.ok (nodeReshape fl nd), ts1)

/-- The `element` rule (lines 73-103): orphan-close-tag pre-check on a
fork, open tag, then (unless self-closing) the child loop followed by
the close tag. -/
def element (fl : Bool) : Nat → List Tok → Option (Except ParseErr Node × List Tok)
| 0, _ => none
| fuel+1, ts =>
  match (tag_close ts).1 with
  | .ok cid => some (.error ⟨some cid.sp, "close tag has no corresponding open tag"⟩, ts)
  | .error _ =>
    match tag_open fuel ts with
    | none => none
    | some (.error e, ts1) => some (.error e, ts1)
    | some (.ok tag, ts1) =>
      if tag.selfclosing then
        some (.ok (Node.mk tag.ident.nm none .element tag.attributes []), ts1)
      else
        match childLoop fl fuel tag ts1 with
        | none => none
        | some (.error e, ts2) => some (.error e, ts2)
        | some (.ok cs, ts2) =>
          match tag_close ts2 with
          | (.error e, ts3) => some (.error e, ts3)
          | (.ok _, ts3) => some (.ok (Node.mk tag.ident.nm none .element tag.attributes cs), ts3)

/-- The child loop of `element` (lines 84-91): while `has_child_nodes`
answers true, parse one more child through the dispatcher. -/
def childLoop (fl : Bool) : Nat → Tag → List Tok → Option (Except ParseErr (List Node) × List Tok)
| 0, _, _ => none
| fuel+1, tag, ts =>
  match has_child_nodes tag ts with
  | .error e => some (.error e, ts)
  | .ok false => some (.ok [], ts)
  | .ok true =>
    match node fl fuel ts with
    | none => none
    | some (.error e, ts1) => some (.error e, ts1)
    | some (.ok ns, ts1) =>
      match childLoop fl fuel tag ts1 with
      | none => none
      | some (.error e, ts2) => some (.error e, ts2)
      | some (.ok ns2, ts2) => some (.ok (ns ++ ns2), ts2)

end

/-- The top-level loop of `parse` (lines 41-48): parse nodes until the
stream is exhausted, appending the produced node lists. -/
def parseLoop (fl : Bool) : Nat → List Tok → Option (Except ParseErr (List Node) × List Tok)
| 0, _ => none
| fuel+1, ts =>
  if ts.isEmpty then some (.ok [], ts)
  else
    match node fl fuel ts with
    | none => none
    | some (.error e, ts1) => some (.error e, ts1)
    | some (.ok ns, ts1) =>
      match parseLoop fl fuel ts1 with
      | none => none
      | some (.error e, ts2) => some (.error e, ts2)
      | some (.ok ns2, ts2) => some (.ok (ns ++ ns2), ts2)

/-- `Parser::parse` (lines 41-48), with the `ParserConfig.flatten` flag
as the first argument and an explicit fuel bound. -/
def parse (fl : Bool) (fuel : Nat) (ts : List Tok) : Option (Except ParseErr (List Node) × List Tok) :=
  parseLoop fl fuel ts

/-! ## The pre-order flattening of a finished tree (specification side of
the flatten comparison) -/

/-- Pre-order flattening of a node forest: each node with its
`child_nodes` cleared, followed by its recursively flattened former
children, in order.  This is the shape §4.6 of the spec ascribes to the
`flatten = true` output. -/
def flattenNodes : List Node → List Node
| [] => []
| Node.mk a b c d cs :: ns => Node.mk a b c d [] :: (flattenNodes cs ++ flattenNodes ns)

/-- A node with its `child_nodes` replaced by their flattening (the
shape `element` builds when its children were parsed in flatten mode). -/
def withFlatChildren : Node → Node
| .mk a b c d cs => .mk a b c d (flattenNodes cs)

/-- Map a function over the success payload of a fueled parse result. -/
def mapRes {α β : Type} (f : α → β) :
    Option (Except ParseErr α × List Tok) → Option (Except ParseErr β × List Tok)
| none => none
| some (.error e, ts) => some (.error e, ts)
| some (.ok a, ts) => some (.ok (f a), ts)

theorem flattenNodes_append (l1 l2 : List Node) :
    flattenNodes (l1 ++ l2) = flattenNodes l1 ++ flattenNodes l2 := by
  induction l1 with
  | nil => simp [flattenNodes]
  | cons n t ih => cases n; simp [flattenNodes, ih]

theorem reshape_withFlat (n : Node) :
    nodeReshape true (withFlatChildren n) = flattenNodes [n] := by
  cases n
  simp [nodeReshape, withFlatChildren, Node.clearChildren, Node.child_nodes, flattenNodes]

theorem withFlat_of_child_nil (n : Node) (h : n.child_nodes = []) :
    withFlatChildren n = n := by
  cases n
  simp [Node.child_nodes] at h
  simp [withFlatChildren, h, flattenNodes]

theorem text_ok_child_nil {ts ts1 : List Tok} {nd : Node}
    (h : text ts = (.ok nd, ts1)) : nd.child_nodes = [] := by
  unfold text at h
  cases hp : parseLit ts with
  | mk r ts2 =>
    rw [hp] at h
    cases r with
    | error e => simp at h
    | ok v =>
      simp at h
      rw [← h.1]
      simp [Node.child_nodes]

theorem block_ok_child_nil {ts ts1 : List Tok} {nd : Node}
    (h : block ts = (.ok nd, ts1)) : nd.child_nodes = [] := by
  unfold block at h
  cases hp : block_expr ts with
  | mk r ts2 =>
    rw [hp] at h
    cases r with
    | error e => simp at h
    | ok v =>
      simp at h
      rw [← h.1]
      simp [Node.child_nodes]

theorem flatten_sim : ∀ fuel : Nat,
    (∀ ts, node true fuel ts = mapRes flattenNodes (node false fuel ts)) ∧
    (∀ ts, element true fuel ts = mapRes withFlatChildren (element false fuel ts)) ∧
    (∀ tag ts, childLoop true fuel tag ts = mapRes flattenNodes (childLoop false fuel tag ts)) := by
  intro fuel
  induction fuel with
  | zero => exact ⟨fun ts => rfl, fun ts => rfl, fun tag ts => rfl⟩
  | succ f ih =>
    obtain ⟨ihn, ihe, ihc⟩ := ih
    refine ⟨?_, ?_, ?_⟩
    · -- node
      intro ts
      simp only [node]
      cases ht : exOk (text ts).1 with
      | true =>
        simp only [ht, if_true]
        cases htx : text ts with
        | mk r ts1 =>
          cases r with
          | error e => simp [mapRes]
          | ok nd =>
            have hnil : nd.child_nodes = [] := text_ok_child_nil htx
            simp [mapRes, ← reshape_withFlat nd, withFlat_of_child_nil nd hnil,
              nodeReshape]
      | false =>
        simp only [ht, if_false, Bool.false_eq_true]
        cases hb : exOk (block ts).1 with
        | true =>
          simp only [hb, if_true]
          cases hbx : block ts with
          | mk r ts1 =>
            cases r with
            | error e => simp [mapRes]
            | ok nd =>
              have hnil : nd.child_nodes = [] := block_ok_child_nil hbx
              simp [mapRes, ← reshape_withFlat nd, withFlat_of_child_nil nd hnil,
                nodeReshape]
        | false =>
          simp only [hb, if_false, Bool.false_eq_true]
          rw [ihe ts]
          cases he : element false f ts with
          | none => simp [mapRes]
          | some r =>
            obtain ⟨r1, ts1⟩ := r
            cases r1 with
            | error e => simp [mapRes]
            | ok nd =>
              simp only [mapRes]
              have h1 : nodeReshape false nd = [nd] := by simp [nodeReshape]
              rw [h1, reshape_withFlat nd]
    · -- element
      intro ts
      simp only [element]
      cases hc : (tag_close ts).1 with
      | ok cid => simp [mapRes]
      | error e0 =>
        cases hto : tag_open f ts with
        | none => simp [mapRes]
        | some r =>
          obtain ⟨r1, ts1⟩ := r
          cases r1 with
          | error e => simp [mapRes]
          | ok tag =>
            cases hsc : tag.selfclosing with
            | true =>
              simp only [hsc, if_true]
              simp [mapRes, withFlatChildren, flattenNodes]
            | false =>
              simp only [hsc, if_false, Bool.false_eq_true]
              rw [ihc tag ts1]
              cases hcl : childLoop false f tag ts1 with
              | none => simp [mapRes]
              | some r2 =>
                obtain ⟨r3, ts2⟩ := r2
                cases r3 with
                | error e => simp [mapRes]
                | ok cs =>
                  simp only [mapRes]
                  cases htc : tag_close ts2 with
                  | mk r4 ts3 =>
                    cases r4 with
                    | error e => simp [mapRes]
                    | ok cid2 => simp [mapRes, withFlatChildren]
    · -- childLoop
      intro tag ts
      simp only [childLoop]
      cases hh : has_child_nodes tag ts with
      | error e => simp [mapRes]
      | ok b =>
        cases b with
        | false => simp [mapRes, flattenNodes]
        | true =>
          rw [ihn ts]
          cases hn : node false f ts with
          | none => simp [mapRes]
          | some r =>
            obtain ⟨r1, ts1⟩ := r
            cases r1 with
            | error e => simp [mapRes]
            | ok ns =>
              simp only [mapRes]
              rw [ihc tag ts1]
              cases hcl : childLoop false f tag ts1 with
              | none => simp [mapRes]
              | some r2 =>
                obtain ⟨r3, ts2⟩ := r2
                cases r3 with
                | error e => simp [mapRes]
                | ok ns2 => simp [mapRes, flattenNodes_append]

theorem parseLoop_flatten : ∀ fuel ts,
    parseLoop true fuel ts = mapRes flattenNodes (parseLoop false fuel ts) := by
  intro fuel
  induction fuel with
  | zero => intro ts; rfl
  | succ f ih =>
    intro ts
    simp only [parseLoop]
    cases hemp : ts.isEmpty with
    | true => simp [hemp, mapRes, flattenNodes]
    | false =>
      simp only [hemp, Bool.false_eq_true, if_false]
      rw [(flatten_sim f).1 ts]
      cases hn : node false f ts with
      | none => simp [mapRes]
      | some r =>
        obtain ⟨r1, ts1⟩ := r
        cases r1 with
        | error e => simp [mapRes]
        | ok ns =>
          simp only [mapRes]
          rw [ih ts1]
          cases hp : parseLoop false f ts1 with
          | none => simp [mapRes]
          | some r2 =>
            obtain ⟨r3, ts2⟩ := r2
            cases r3 with
            | error e => simp [mapRes]
            | ok ns2 => simp [mapRes, flattenNodes_append]

/-! ## Content-node invariant: parsed content sequences never contain
`Attribute`-typed nodes (those live only in `attributes` fields) -/

/-- A node type other than `Attribute`. -/
def notAttr : NodeType → Bool
| .attribute => false
| _ => true

/-- Every node of the forest, recursively, has a non-`Attribute` type. -/
def contentOnlyList : List Node → Bool
| [] => true
| Node.mk _ _ t _ cs :: ns => notAttr t && contentOnlyList cs && contentOnlyList ns

theorem contentOnlyList_append (l1 l2 : List Node) :
    contentOnlyList (l1 ++ l2) = (contentOnlyList l1 && contentOnlyList l2) := by
  induction l1 with
  | nil => simp [contentOnlyList]
  | cons n t ih => cases n; simp [contentOnlyList, ih, Bool.and_assoc]

theorem contentOnlyList_reshape (fl : Bool) (n : Node)
    (h : contentOnlyList [n] = true) : contentOnlyList (nodeReshape fl n) = true := by
  cases n
  cases fl with
  | false => simpa [nodeReshape] using h
  | true =>
    simp [contentOnlyList] at h
    simp [nodeReshape, Node.clearChildren, Node.child_nodes, contentOnlyList, h]

theorem text_ok_content {ts ts1 : List Tok} {nd : Node}
    (h : text ts = (.ok nd, ts1)) : contentOnlyList [nd] = true := by
  unfold text at h
  cases hp : parseLit ts with
  | mk r ts2 =>
    rw [hp] at h
    cases r with
    | error e => simp at h
    | ok v =>
      simp at h
      rw [← h.1]
      simp [contentOnlyList, notAttr]

theorem block_ok_content {ts ts1 : List Tok} {nd : Node}
    (h : block ts = (.ok nd, ts1)) : contentOnlyList [nd] = true := by
  unfold block at h
  cases hp : block_expr ts with
  | mk r ts2 =>
    rw [hp] at h
    cases r with
    | error e => simp at h
    | ok v =>
      simp at h
      rw [← h.1]
      simp [contentOnlyList, notAttr]

theorem content_invariant : ∀ fuel : Nat,
    (∀ fl ts ns ts1, node fl fuel ts = some (.ok ns, ts1) → contentOnlyList ns = true) ∧
    (∀ fl ts nd ts1, element fl fuel ts = some (.ok nd, ts1) → contentOnlyList [nd] = true) ∧
    (∀ fl tag ts ns ts1, childLoop fl fuel tag ts = some (.ok ns, ts1) → contentOnlyList ns = true) := by
  intro fuel
  induction fuel with
  | zero =>
    exact ⟨fun fl ts ns ts1 h => by simp [node] at h,
           fun fl ts nd ts1 h => by simp [element] at h,
           fun fl tag ts ns ts1 h => by simp [childLoop] at h⟩
  | succ f ih =>
    obtain ⟨ihn, ihe, ihc⟩ := ih
    refine ⟨?_, ?_, ?_⟩
    · intro fl ts ns ts1 h
      simp only [node] at h
      split at h
      · exact absurd h (by simp)
      · exact absurd h (by simp)
      · rename_i nd ts2 heq
        simp at h
        rw [← h.1]
        split at heq
        · simp at heq
          exact contentOnlyList_reshape fl nd (text_ok_content heq)
        · split at heq
          · simp at heq
            exact contentOnlyList_reshape fl nd (block_ok_content heq)
          · exact contentOnlyList_reshape fl nd (ihe fl ts nd ts2 heq)
    · intro fl ts nd ts1 h
      simp only [element] at h
      split at h
      · exact absurd h (by simp)
      · split at h
        · exact absurd h (by simp)
        · exact absurd h (by simp)
        · rename_i tag ts2 heq
          split at h
          · simp at h
            rw [← h.1]
            simp [contentOnlyList, notAttr]
          · split at h
            · exact absurd h (by simp)
            · exact absurd h (by simp)
            · rename_i cs ts3 heq2
              split at h
              · exact absurd h (by simp)
              · simp at h
                rw [← h.1]
                have hcs := ihc fl tag ts2 cs ts3 heq2
                simp [contentOnlyList, notAttr, hcs]
    · intro fl tag ts ns ts1 h
      simp only [childLoop] at h
      split at h
      · exact absurd h (by simp)
      · simp at h
        rw [h.1]
        simp [contentOnlyList]
      · split at h
        · exact absurd h (by simp)
        · exact absurd h (by simp)
        · rename_i ns0 ts2 heq
          split at h
          · exact absurd h (by simp)
          · exact absurd h (by simp)
          · rename_i ns2 ts3 heq2
            simp at h
            rw [← h.1]
            rw [contentOnlyList_append]
            simp [ihn fl ts ns0 ts2 heq, ihc fl tag ts2 ns2 ts3 heq2]

theorem parseLoop_content : ∀ fuel fl ts ns ts1,
    parseLoop fl fuel ts = some (.ok ns, ts1) → contentOnlyList ns = true := by
  intro fuel
  induction fuel with
  | zero => intro fl ts ns ts1 h; simp [parseLoop] at h
  | succ f ih =>
    intro fl ts ns ts1 h
    simp only [parseLoop] at h
    split at h
    · simp at h
      rw [h.1]
      simp [contentOnlyList]
    · split at h
      · exact absurd h (by simp)
      · exact absurd h (by simp)
      · rename_i ns0 ts2 heq
        split at h
        · exact absurd h (by simp)
        · exact absurd h (by simp)
        · rename_i ns2 ts3 heq2
          simp at h
          rw [← h.1]
          rw [contentOnlyList_append]
          simp [(content_invariant f).1 fl ts ns0 ts2 heq, ih fl ts2 ns2 ts3 heq2]

theorem flattenNodes_child_nil : ∀ l : List Node, ∀ m ∈ flattenNodes l, m.child_nodes = [] := by
  intro l
  induction l using flattenNodes.induct with
  | case1 => simp [flattenNodes]
  | case2 a b c d cs ns ih1 ih2 =>
    intro m hm
    simp only [flattenNodes, List.mem_cons, List.mem_append] at hm
    rcases hm with rfl | hm' | hm'
    · simp [Node.child_nodes]
    · exact ih1 m hm'
    · exact ih2 m hm'

theorem flattenNodes_notAttr : ∀ l : List Node, contentOnlyList l = true →
    ∀ m ∈ flattenNodes l, notAttr m.node_type = true := by
  intro l
  induction l using flattenNodes.induct with
  | case1 => simp [flattenNodes]
  | case2 a b c d cs ns ih1 ih2 =>
    intro hco m hm
    simp only [contentOnlyList, Bool.and_eq_true] at hco
    simp only [flattenNodes, List.mem_cons, List.mem_append] at hm
    rcases hm with rfl | hm' | hm'
    · simpa [Node.node_type] using hco.1.1
    · exact ih1 hco.1.2 m hm'
    · exact ih2 hco.2 m hm'

/-! ## Sample token streams used to instantiate the claims -/

/-- Tokens of `<a><b>"t"</b></a>`. -/
def sampleNested : List Tok :=
  [.punct '<' 0, .ident "a" false 1, .punct '>' 2,
   .punct '<' 3, .ident "b" false 4, .punct '>' 5, .lit "t" 6,
   .punct '<' 7, .punct '/' 8, .ident "b" false 9, .punct '>' 10,
   .punct '<' 11, .punct '/' 12, .ident "a" false 13, .punct '>' 14]

/-- The `flatten = false` parse tree of `sampleNested`. -/
def sampleNestedTree : List Node :=
  [Node.mk "a" none .element []
    [Node.mk "b" none .element [] [Node.mk "#text" (some (.lit "t")) .text [] []]]]

/-- Tokens of `</a>`. -/
def sampleOrphan : List Tok :=
  [.punct '<' 0, .punct '/' 1, .ident "a" false 2, .punct '>' 3]

/-- Tokens of `<a></b>`. -/
def sampleMismatch : List Tok :=
  [.punct '<' 10, .ident "a" false 11, .punct '>' 12,
   .punct '<' 13, .punct '/' 14, .ident "b" false 15, .punct '>' 16]

/-- Tokens of `<a>"text"` (open tag, one text child, end of input). -/
def sampleUnterminated : List Tok :=
  [.punct '<' 0, .ident "a" false 1, .punct '>' 2, .lit "text" 3]

/-- Tokens of `<a><b` (end of input in the middle of a nested open tag). -/
def sampleOpenEof : List Tok :=
  [.punct '<' 0, .ident "a" false 1, .punct '>' 2, .punct '<' 3, .ident "b" false 4]

/-! ## Claims -/

/-- C1: for every token stream that parses successfully with
`flatten = false`, parsing the same stream with `flatten = true` (same
fuel) yields exactly the pre-order flattening of the `flatten = false`
content-node forest — each node followed by its former direct children
in original order, themselves already flattened — every node of the
flattened output has an empty `child_nodes` field, and no
`Attribute`-typed node appears as a sequence entry (attribute nodes stay
in their element's `attributes` field, which `flattenNodes` carries over
unchanged). -/
theorem flatten_matches_preorder (fuel : Nat) (ts ts1 : List Tok) (ns : List Node)
    (h : parse false fuel ts = some (.ok ns, ts1)) :
    parse true fuel ts = some (.ok (flattenNodes ns), ts1) ∧
    (∀ m ∈ flattenNodes ns, m.child_nodes = []) ∧
    (∀ m ∈ flattenNodes ns, m.node_type ≠ NodeType.attribute) := by
  refine ⟨?_, fun m hm => flattenNodes_child_nil ns m hm, fun m hm => ?_⟩
  · simp only [parse] at h ⊢
    rw [parseLoop_flatten fuel ts, h]
    rfl
  · have hco := parseLoop_content fuel false ts ns ts1 h
    have hna := flattenNodes_notAttr ns hco m hm
    intro hEq
    rw [hEq] at hna
    simp [notAttr] at hna

/-- Witness for C1 at the concrete stream `<a><b>"t"</b></a>`. -/
theorem flatten_matches_preorder_witness :
    parse true 40 sampleNested = some (.ok (flattenNodes sampleNestedTree), []) :=
  (flatten_matches_preorder 40 sampleNested [] sampleNestedTree rfl).1

/-- C2 counterexample: the code does not give the two close-tag failures
distinct kinds — `</a>` alone and `<a></b>` both fail with the one
message `"close tag has no corresponding open tag"` (lines 77 and 122 of
`parser.rs` use the same string); only the positions differ. -/
theorem orphan_and_mismatch_same_kind :
    parse false 20 sampleOrphan =
      some (.error ⟨some 2, "close tag has no corresponding open tag"⟩, sampleOrphan) ∧
    parse false 20 sampleMismatch =
      some (.error ⟨some 15, "close tag has no corresponding open tag"⟩,
        [.punct '<' 13, .punct '/' 14, .ident "b" false 15, .punct '>' 16]) :=
  ⟨rfl, rfl⟩

/-- C2 amended: both close-tag failures carry the same error message
(kind); they are distinguished only by position and by the code path
that raises them — a stray close tag fails at the close tag's name via
the `element` pre-check, and a close tag naming a different tag than the
enclosing open tag fails at the close tag's name via the child-loop
check in `has_child_nodes`. -/
theorem close_tag_error_positions :
    (∀ (fl : Bool) (fuel : Nat) (ts : List Tok) (cid : Ident),
      (tag_close ts).1 = .ok cid →
      element fl (fuel + 1) ts =
        some (.error ⟨some cid.sp, "close tag has no corresponding open tag"⟩, ts)) ∧
    (∀ (tag : Tag) (ts : List Tok) (cid : Ident),
      (tag_close ts).1 = .ok cid → tag.ident.nm ≠ cid.nm →
      has_child_nodes tag ts =
        .error ⟨some cid.sp, "close tag has no corresponding open tag"⟩) := by
  constructor
  · intro fl fuel ts cid h
    simp only [element, h]
  · intro tag ts cid h hne
    have hne2 : ts ≠ [] := by
      intro hts
      rw [hts] at h
      simp [tag_close, parsePunct, eofErr] at h
    simp only [has_child_nodes, h]
    simp [List.isEmpty_iff, hne2, hne]

/-- Witness for C2's amended claim at `</a>` and `<a></b>`. -/
theorem close_tag_error_positions_witness :
    element false 20 sampleOrphan =
      some (.error ⟨some 2, "close tag has no corresponding open tag"⟩, sampleOrphan) ∧
    has_child_nodes ⟨⟨"a", false, 11⟩, [], false⟩
        [.punct '<' 13, .punct '/' 14, .ident "b" false 15, .punct '>' 16] =
      .error ⟨some 15, "close tag has no corresponding open tag"⟩ :=
  ⟨close_tag_error_positions.1 false 19 sampleOrphan ⟨"a", false, 2⟩ rfl,
   close_tag_error_positions.2 ⟨⟨"a", false, 11⟩, [], false⟩ _ ⟨"b", false, 15⟩ rfl
     (by decide)⟩

/-- C5 counterexample: `<a><b` — the open tag of `a` has been parsed
(not self-closing) and the input is exhausted before any close tag is
found, yet the parse fails with the generic end-of-input error of the
nested `tag_open` (positioned at end of input, span `none`), not with
the unterminated-open-tag error at `a`'s name. -/
theorem eof_inside_open_tag :
    parse false 20 sampleOpenEof = some (.error ⟨none, "unexpected end of input"⟩, []) ∧
    "unexpected end of input" ≠ "open tag has no corresponding close tag" :=
  ⟨rfl, by decide⟩

/-- C5 amended: when the input is exhausted while the parser sits at a
child-node boundary of an element (looking for the next child or the
close tag), parsing fails with `"open tag has no corresponding close
tag"` positioned at that element's open-tag name — so `<a>"text"` fails
at `a`; if the input instead runs out in the middle of a nested
construct (such as inside a child's open tag), the failing sub-rule's
own end-of-input error surfaces instead. -/
theorem unterminated_open_tag :
    (∀ (fl : Bool) (fuel : Nat) (tag : Tag),
      childLoop fl (fuel + 1) tag [] =
        some (.error ⟨some tag.ident.sp, "open tag has no corresponding close tag"⟩, [])) ∧
    (∀ tag : Tag, has_child_nodes tag [] =
      .error ⟨some tag.ident.sp, "open tag has no corresponding close tag"⟩) ∧
    parse false 20 sampleUnterminated =
      some (.error ⟨some 1, "open tag has no corresponding close tag"⟩, []) := by
  refine ⟨fun fl fuel tag => ?_, fun tag => rfl, rfl⟩
  simp [childLoop, has_child_nodes]

/-- C10: the empty token stream parses successfully to the empty node
sequence under both flatten modes (any positive fuel). -/
theorem empty_input_ok (fl : Bool) (fuel : Nat) :
    parse fl (fuel + 1) [] = some (.ok [], []) := by
  simp [parse, parseLoop]

/-- Tokens of `<a/>`. -/
def sampleSelfClosing : List Tok :=
  [.punct '<' 0, .ident "a" false 1, .punct '/' 2, .punct '>' 3]

/-- Tokens of `<a></a>`. -/
def sampleOpenClose : List Tok :=
  [.punct '<' 0, .ident "a" false 1, .punct '>' 2,
   .punct '<' 3, .punct '/' 4, .ident "a" false 5, .punct '>' 6]

/-- Tokens of `<a x=1 y={expr}/>`. -/
def sampleAttrs : List Tok :=
  [.punct '<' 0, .ident "a" false 1, .ident "x" false 2, .punct '=' 3, .lit "1" 4,
   .ident "y" false 5, .punct '=' 6, .group .brace [.ident "expr" false 8] 7,
   .punct '/' 9, .punct '>' 10]

/-- Tokens of `<a x=1 = >` — a well-formed attribute followed by a
leftover `=` inside the attribute range. -/
def sampleLeftover : List Tok :=
  [.punct '<' 0, .ident "a" false 1, .ident "x" false 2, .punct '=' 3, .lit "1" 4,
   .punct '=' 5, .punct '>' 6]

theorem parsePunct_ok_shape {c : Char} {ts ts1 : List Tok} {u : Unit}
    (h : parsePunct c ts = (.ok u, ts1)) : ∃ sp, ts = Tok.punct c sp :: ts1 := by
  unfold parsePunct at h
  cases ts with
  | nil => simp at h
  | cons t rest =>
    cases t with
    | punct c2 sp =>
      by_cases hc : c2 = c
      · simp [hc] at h
        exact ⟨sp, by rw [hc, h]⟩
      · simp [hc] at h
    | ident nm kw sp => simp at h
    | lit v sp => simp at h
    | group d inner sp => simp at h

theorem parseIdent_ok_shape {ts ts1 : List Tok} {id : Ident}
    (h : parseIdent ts = (.ok id, ts1)) :
    ts = Tok.ident id.nm false id.sp :: ts1 ∧ id.kw = false := by
  unfold parseIdent at h
  cases ts with
  | nil => simp at h
  | cons t rest =>
    cases t with
    | punct c2 sp => simp at h
    | ident nm kw sp =>
      cases kw with
      | true => simp at h
      | false =>
        simp at h
        rw [← h.1]
        exact ⟨by rw [h.2], rfl⟩
    | lit v sp => simp at h
    | group d inner sp => simp at h

theorem tag_open_ok_shape {fuel : Nat} {ts ts1 : List Tok} {tag : Tag}
    (h : tag_open fuel ts = some (.ok tag, ts1)) :
    ∃ sp rest, ts = Tok.punct '<' sp :: Tok.ident tag.ident.nm false tag.ident.sp :: rest ∧
      tag.ident.kw = false := by
  cases fuel with
  | zero => simp [tag_open] at h
  | succ f =>
    simp only [tag_open] at h
    split at h
    · exact absurd h (by simp)
    · rename_i u ts2 heq
      split at h
      · exact absurd h (by simp)
      · rename_i id ts3 heq2
        obtain ⟨sp, rfl⟩ := parsePunct_ok_shape heq
        obtain ⟨hshape, hkw⟩ := parseIdent_ok_shape heq2
        split at h
        · exact absurd h (by simp)
        · exact absurd h (by simp)
        · split at h
          · exact absurd h (by simp)
          · exact absurd h (by simp)
          · simp at h
            refine ⟨sp, ts3, ?_, ?_⟩
            · rw [hshape, ← h.1]
            · rw [← h.1]
              exact hkw

/-- C6: a self-closing open tag produces an `Element` with an empty
child sequence, and the parser never attempts to parse a close tag for
it — `element` returns exactly at the stream position `tag_open` left.
Concretely, `<a/>` and `<a></a>` both yield an `Element "a"` with zero
children and no attributes. -/
theorem selfclosing_no_close_tag :
    (∀ (fl : Bool) (fuel : Nat) (ts ts1 : List Tok) (tag : Tag),
      tag_open fuel ts = some (.ok tag, ts1) → tag.selfclosing = true →
      element fl (fuel + 1) ts =
        some (.ok (Node.mk tag.ident.nm none .element tag.attributes []), ts1)) ∧
    parse false 20 sampleSelfClosing = some (.ok [Node.mk "a" none .element [] []], []) ∧
    parse false 20 sampleOpenClose = some (.ok [Node.mk "a" none .element [] []], []) := by
  refine ⟨?_, rfl, rfl⟩
  intro fl fuel ts ts1 tag h hsc
  obtain ⟨sp, rest, rfl, hkw⟩ := tag_open_ok_shape h
  have hclose :
      (tag_close (Tok.punct '<' sp :: Tok.ident tag.ident.nm false tag.ident.sp :: rest)).1 =
        .error (errAt (Tok.ident tag.ident.nm false tag.ident.sp) "expected punctuation") := by
    simp [tag_close, parsePunct]
  simp only [element, hclose, h, hsc, if_true]

/-- Witness for C6 at `<a/>`. -/
theorem selfclosing_no_close_tag_witness :
    element false 20 sampleSelfClosing =
      some (.ok (Node.mk "a" none .element [] []), []) :=
  selfclosing_no_close_tag.1 false 19 sampleSelfClosing [] ⟨⟨"a", false, 1⟩, [], true⟩ rfl rfl

/-- C3 counterexample: the `element` alternative is not trial-run on a
forked cursor — when it fails, the dispatcher's result carries the
cursor `element` advanced past `<` (here to `[]`), not the untouched
input a fork-first protocol would leave. -/
theorem element_alternative_not_forked :
    node false 5 [Tok.punct '<' 0] = some (.error ⟨none, "expected identifier"⟩, []) ∧
    ([] : List Tok) ≠ [Tok.punct '<' 0] :=
  ⟨rfl, by simp⟩

/-- C3 amended: the dispatcher attempts `text` then `block`, each on a
forked cursor, and replays the first trial success on the real cursor;
when both trials fail it runs `element` directly on the real cursor
(success commits, failure propagates with whatever `element` consumed).
Consequently a bare literal always becomes a `Text` node and a bare
brace-delimited group always becomes a `Block` node, never an element. -/
theorem dispatcher_order :
    (∀ (fl : Bool) (fuel : Nat) (ts ts1 : List Tok) (nd : Node),
      text ts = (.ok nd, ts1) →
      node fl (fuel + 1) ts = some (.ok (nodeReshape fl nd), ts1)) ∧
    (∀ (fl : Bool) (fuel : Nat) (ts ts1 : List Tok) (nd : Node),
      exOk (text ts).1 = false → block ts = (.ok nd, ts1) →
      node fl (fuel + 1) ts = some (.ok (nodeReshape fl nd), ts1)) ∧
    (∀ (fl : Bool) (fuel : Nat) (ts : List Tok),
      exOk (text ts).1 = false → exOk (block ts).1 = false →
      node fl (fuel + 1) ts = mapRes (nodeReshape fl) (element fl fuel ts)) ∧
    (∀ (fl : Bool) (fuel : Nat) (v : String) (sp : Nat) (rest : List Tok),
      node fl (fuel + 1) (Tok.lit v sp :: rest) =
        some (.ok [Node.mk "#text" (some (.lit v)) .text [] []], rest)) ∧
    (∀ (fl : Bool) (fuel : Nat) (inner rest : List Tok) (sp : Nat),
      node fl (fuel + 1) (Tok.group .brace inner sp :: rest) =
        some (.ok [Node.mk "#block" (some (.block inner)) .block [] []], rest)) := by
  refine ⟨?_, ?_, ?_, ?_, ?_⟩
  · intro fl fuel ts ts1 nd h
    have hok : exOk (text ts).1 = true := by rw [h]; rfl
    simp only [node, hok, if_true, h]
    simp [exOk]
  · intro fl fuel ts ts1 nd ht h
    have hok : exOk (block ts).1 = true := by rw [h]; rfl
    simp only [node, ht, Bool.false_eq_true, if_false, hok, if_true, h]
    simp [exOk]
  · intro fl fuel ts ht hb
    simp only [node, ht, hb, Bool.false_eq_true, if_false]
    cases he : element fl fuel ts with
    | none => simp [mapRes]
    | some r =>
      obtain ⟨r1, ts2⟩ := r
      cases r1 with
      | error e => simp [mapRes]
      | ok nd => simp [mapRes]
  · intro fl fuel v sp rest
    have h : text (Tok.lit v sp :: rest) =
        (.ok (Node.mk "#text" (some (.lit v)) .text [] []), rest) := rfl
    have hok : exOk (text (Tok.lit v sp :: rest)).1 = true := by rw [h]; rfl
    simp only [node, hok, if_true, h]
    cases fl <;> rfl
  · intro fl fuel inner rest sp
    have ht : exOk (text (Tok.group .brace inner sp :: rest)).1 = false := rfl
    have h : block (Tok.group .brace inner sp :: rest) =
        (.ok (Node.mk "#block" (some (.block inner)) .block [] []), rest) := rfl
    have hok : exOk (block (Tok.group .brace inner sp :: rest)).1 = true := by rw [h]; rfl
    simp only [node, ht, Bool.false_eq_true, if_false, hok, if_true, h]
    cases fl <;> rfl

/-- Witness for C3's amended claim: the three dispatch equations at
concrete one-token streams (a literal, a brace group, a lone `<`). -/
theorem dispatcher_order_witness :
    node false 1 [Tok.lit "1" 0] =
      some (.ok (nodeReshape false (Node.mk "#text" (some (.lit "1")) .text [] [])), []) ∧
    node false 1 [Tok.group .brace [] 7] =
      some (.ok (nodeReshape false (Node.mk "#block" (some (.block [])) .block [] [])), []) ∧
    node false 1 [Tok.punct '<' 0] = mapRes (nodeReshape false) (element false 0 [Tok.punct '<' 0]) :=
  ⟨dispatcher_order.1 false 0 [Tok.lit "1" 0] [] (Node.mk "#text" (some (.lit "1")) .text [] []) rfl,
   dispatcher_order.2.1 false 0 [Tok.group .brace [] 7] []
     (Node.mk "#block" (some (.block [])) .block [] []) rfl rfl,
   dispatcher_order.2.2.1 false 0 [Tok.punct '<' 0] rfl rfl⟩

/-- C4 counterexample: the `block` rule is not atomic — on a
non-brace-group token it consumes the inspected `TokenTree` (the
`input.parse::<TokenTree>()` of `block_expr` commits) and then fails, so
the failed rule leaves the cursor advanced past the token. -/
theorem block_consumes_on_failure :
    block [Tok.lit "1" 5] = (.error ⟨some 5, "expected curly braces"⟩, []) ∧
    ([] : List Tok) ≠ [Tok.lit "1" 5] :=
  ⟨rfl, by simp⟩

/-- C4 amended: each rule either fully succeeds, committing its cursor
advancement, or fails with an error carrying the offending token's
position; the `text` rule is non-consuming on failure, and a failed
attribute trial ends the attribute loop exactly where the last success
left the cursor, but the rules are otherwise not atomic: `block`,
`element`, `tag_open`, `tag_close` and `attribute` can consume a prefix
of the cursor they run on before failing, and `tag_open`'s terminator
scan (lines 135-141) even catches `tag_open_end`'s failure on the real
cursor and keeps parsing with a stray `/` consumed — observably in the
final result: the open tag `<a / b >` parses successfully, not
self-closing, with attribute `b` and the `/` in neither the attribute
list nor the remaining stream. -/
theorem rule_failure_discipline :
    (∀ (ts : List Tok) (e : ParseErr), (text ts).1 = .error e → (text ts).2 = ts) ∧
    (∀ (fuel : Nat) (ts : List Tok), exOk («attribute» ts).1 = false →
      attrLoop (fuel + 1) ts = some (.ok [], ts)) ∧
    (∀ (t : Tok) (rest : List Tok) (e : ParseErr),
      (text (t :: rest)).1 = .error e → e.span = some t.span) ∧
    (∀ (t : Tok) (rest : List Tok) (e : ParseErr),
      (block (t :: rest)).1 = .error e → e.span = some t.span) ∧
    tag_open 10 [.punct '<' 0, .ident "a" false 1, .punct '/' 2, .ident "b" false 3,
        .punct '>' 4] =
      some (.ok (Tag.mk (Ident.mk "a" false 1) [Node.mk "b" none .attribute [] []] false),
        []) := by
  refine ⟨?_, ?_, ?_, ?_, rfl⟩
  · intro ts e h
    unfold text at h ⊢
    cases hp : parseLit ts with
    | mk r ts2 =>
      rw [hp] at h
      cases r with
      | error e2 =>
        simp only
        unfold parseLit at hp
        cases ts with
        | nil => simp at hp; rw [hp.2]
        | cons t rest =>
          cases t with
          | punct c sp => simp at hp; rw [hp.2]
          | lit v sp => simp at hp
          | group d inner sp => simp at hp; rw [hp.2]
          | ident nm kw sp =>
            by_cases hb : nm = "true" ∨ nm = "false"
            · simp [hb] at hp
            · simp [hb] at hp
              rw [hp.2]
      | ok v => simp at h
  · intro fuel ts h
    simp only [attrLoop]
    cases ha : («attribute» ts).1 with
    | error e => rfl
    | ok kv => rw [ha] at h; simp [exOk] at h
  · intro t rest e h
    unfold text parseLit at h
    cases t with
    | punct c sp => simp at h; rw [← h]; rfl
    | lit v sp => simp at h
    | group d inner sp => simp at h; rw [← h]; rfl
    | ident nm kw sp =>
      by_cases hb : nm = "true" ∨ nm = "false"
      · simp [hb] at h
      · simp [hb] at h
        rw [← h]
        rfl
  · intro t rest e h
    unfold block block_expr at h
    cases t with
    | punct c sp => simp at h; rw [← h]; rfl
    | lit v sp => simp at h; rw [← h]; rfl
    | ident nm kw sp => simp at h; rw [← h]; rfl
    | group d inner sp =>
      cases d with
      | brace => simp at h
      | paren => simp at h; rw [← h]; rfl
      | bracket => simp at h; rw [← h]; rfl

/-- Witness for C4's amended claim at concrete inputs. -/
theorem rule_failure_discipline_witness :
    (text [Tok.punct '<' 0]).2 = [Tok.punct '<' 0] ∧
    attrLoop 1 [] = some (.ok [], []) ∧
    (⟨some 5, "expected curly braces"⟩ : ParseErr).span = some (Tok.lit "1" 5).span :=
  ⟨rule_failure_discipline.1 [Tok.punct '<' 0] ⟨some 0, "expected literal"⟩ rfl,
   rule_failure_discipline.2.1 0 [] rfl,
   rule_failure_discipline.2.2.2.1 (Tok.lit "1" 5) [] ⟨some 5, "expected curly braces"⟩ rfl⟩

/-- C7: the attribute rule parses an identifier-like key (reserved words
accepted: the `kw` flag is arbitrary), optionally followed by `=` and a
value — an opaque block expression when the next token is a
brace-delimited group, a single literal or path expression token
otherwise; an empty attribute range yields an empty attribute list; and
`<a x=1 y={expr}/>` produces an `Element "a"` whose attribute list is,
in order, `x` with literal value `1` then `y` with a block value
wrapping `expr`. -/
theorem attribute_rule_behaviour :
    (∀ fuel : Nat, attributes fuel [] = some (.ok [], [])) ∧
    (∀ (nm : String) (kw : Bool) (sp psp gsp : Nat) (inner rest : List Tok),
      «attribute» (.ident nm kw sp :: .punct '=' psp :: .group .brace inner gsp :: rest) =
        (.ok (nm, some (.block inner)), rest)) ∧
    (∀ (nm : String) (kw : Bool) (sp psp lsp : Nat) (v : String) (rest : List Tok),
      «attribute» (.ident nm kw sp :: .punct '=' psp :: .lit v lsp :: rest) =
        (.ok (nm, some (.lit v)), rest)) ∧
    (∀ (nm nm2 : String) (kw : Bool) (sp psp psp2 : Nat) (rest : List Tok),
      nm2 ≠ "true" → nm2 ≠ "false" →
      «attribute» (.ident nm kw sp :: .punct '=' psp :: .ident nm2 false psp2 :: rest) =
        (.ok (nm, some (.path nm2)), rest)) ∧
    (∀ (nm : String) (kw : Bool) (sp : Nat),
      «attribute» [.ident nm kw sp] = (.ok (nm, none), [])) ∧
    parse false 20 sampleAttrs = some (.ok [Node.mk "a" none .element
      [Node.mk "x" (some (.lit "1")) .attribute [] [],
       Node.mk "y" (some (.block [.ident "expr" false 8])) .attribute [] []] []], []) := by
  refine ⟨fun fuel => rfl, ?_, ?_, ?_, fun nm kw sp => rfl, rfl⟩
  · intro nm kw sp psp gsp inner rest
    simp [«attribute», parseIdentAny, peekBrace, block_expr]
  · intro nm kw sp psp lsp v rest
    simp [«attribute», parseIdentAny, peekBrace, parseExprValue]
  · intro nm nm2 kw sp psp psp2 rest h1 h2
    simp [«attribute», parseIdentAny, peekBrace, parseExprValue, h1, h2]

/-- Witness for C7 at a concrete path-valued attribute. -/
theorem attribute_rule_behaviour_witness :
    «attribute» [.ident "x" false 0, .punct '=' 1, .ident "v" false 2] =
      (.ok ("x", some (.path "v")), []) :=
  attribute_rule_behaviour.2.2.2.1 "x" "v" false 0 1 2 [] (by decide) (by decide)

/-- C8: when the attribute-list loop stops with tokens of the collected
attribute range left unconsumed, the wrapping `parse2` sub-parse fails
with a range-not-fully-consumed error at the first leftover token, and
an end-to-end parse of `<a x=1 = >` fails there rather than silently
dropping the leftover `=`. -/
theorem attr_leftover_error :
    (∀ (fuel : Nat) (buf : List Tok) (ns : List Node) (t : Tok) (rest : List Tok),
      attributes fuel buf = some (.ok ns, t :: rest) →
      parse2Attrs fuel buf = some (.error ⟨some t.span, "unexpected token"⟩)) ∧
    parse false 20 sampleLeftover = some (.error ⟨some 5, "unexpected token"⟩, []) := by
  refine ⟨?_, rfl⟩
  intro fuel buf ns t rest h
  simp only [parse2Attrs, h, errAt]

/-- Witness for C8: the attribute range of `<a x=1 = >` parses a
one-attribute prefix and leaves the stray `=`, which `parse2` rejects. -/
theorem attr_leftover_error_witness :
    parse2Attrs 19 [.ident "x" false 2, .punct '=' 3, .lit "1" 4, .punct '=' 5] =
      some (.error ⟨some 5, "unexpected token"⟩) :=
  attr_leftover_error.1 19 [.ident "x" false 2, .punct '=' 3, .lit "1" 4, .punct '=' 5]
    [Node.mk "x" (some (.lit "1")) .attribute [] []] (.punct '=' 5) [] rfl

/-! ## Consumption bookkeeping: streams never grow, committed rules
consume, and fuel linear in the input length suffices -/

theorem parsePunct_err_id {c : Char} {ts : List Tok} {e : ParseErr}
    (h : (parsePunct c ts).1 = .error e) : (parsePunct c ts).2 = ts := by
  unfold parsePunct at h ⊢
  cases ts with
  | nil => rfl
  | cons t rest =>
    cases t with
    | punct c2 sp =>
      by_cases hc : c2 = c
      · simp [hc] at h
      · simp [hc]
    | ident nm kw sp => rfl
    | lit v sp => rfl
    | group d inner sp => rfl

theorem parseIdent_len (ts : List Tok) : (parseIdent ts).2.length ≤ ts.length := by
  unfold parseIdent
  cases ts with
  | nil => simp
  | cons t rest =>
    cases t with
    | punct c2 sp => simp
    | ident nm kw sp => cases kw <;> simp
    | lit v sp => simp
    | group d inner sp => simp

theorem parseIdentAny_ok_shape {ts ts1 : List Tok} {id : Ident}
    (h : parseIdentAny ts = (.ok id, ts1)) : ts = Tok.ident id.nm id.kw id.sp :: ts1 := by
  unfold parseIdentAny at h
  cases ts with
  | nil => simp at h
  | cons t rest =>
    cases t with
    | punct c2 sp => simp at h
    | ident nm kw sp =>
      simp at h
      rw [← h.1, h.2]
    | lit v sp => simp at h
    | group d inner sp => simp at h

theorem parseExprValue_le (ts : List Tok) : (parseExprValue ts).2.length ≤ ts.length := by
  unfold parseExprValue
  cases ts with
  | nil => simp
  | cons t rest =>
    cases t with
    | punct c2 sp => simp
    | ident nm kw sp =>
      by_cases hb : nm = "true" ∨ nm = "false"
      · simp [hb]
      · cases kw <;> simp [hb]
    | lit v sp => simp
    | group d inner sp => cases d <;> simp

theorem block_expr_le (ts : List Tok) : (block_expr ts).2.length ≤ ts.length := by
  unfold block_expr
  cases ts with
  | nil => simp
  | cons t rest =>
    cases t with
    | punct c2 sp => simp
    | ident nm kw sp => simp
    | lit v sp => simp
    | group d inner sp => cases d <;> simp

theorem text_le (ts : List Tok) : (text ts).2.length ≤ ts.length := by
  unfold text parseLit
  cases ts with
  | nil => simp
  | cons t rest =>
    cases t with
    | punct c2 sp => simp
    | ident nm kw sp =>
      by_cases hb : nm = "true" ∨ nm = "false"
      · simp [hb]
      · simp [hb]
    | lit v sp => simp
    | group d inner sp => simp

theorem text_ok_lt {ts ts1 : List Tok} {nd : Node}
    (h : text ts = (.ok nd, ts1)) : ts1.length < ts.length := by
  unfold text parseLit at h
  cases ts with
  | nil => simp at h
  | cons t rest =>
    cases t with
    | punct c2 sp => simp at h
    | ident nm kw sp =>
      by_cases hb : nm = "true" ∨ nm = "false"
      · simp [hb] at h
        rw [← h.2]
        simp
      · simp [hb] at h
    | lit v sp =>
      simp at h
      rw [← h.2]
      simp
    | group d inner sp => simp at h

theorem block_le (ts : List Tok) : (block ts).2.length ≤ ts.length := by
  unfold block
  cases hb : block_expr ts with
  | mk r ts1 =>
    have := block_expr_le ts
    rw [hb] at this
    cases r <;> simpa using this

theorem block_ok_lt {ts ts1 : List Tok} {nd : Node}
    (h : block ts = (.ok nd, ts1)) : ts1.length < ts.length := by
  unfold block block_expr at h
  cases ts with
  | nil => simp at h
  | cons t rest =>
    cases t with
    | punct c2 sp => simp at h
    | ident nm kw sp => simp at h
    | lit v sp => simp at h
    | group d inner sp =>
      cases d with
      | brace =>
        simp at h
        rw [← h.2]
        simp
      | paren => simp at h
      | bracket => simp at h

theorem peekSlash_le (ts : List Tok) : (peekSlash ts).2.length ≤ ts.length := by
  unfold peekSlash
  split
  · simp
  · simp

theorem tag_open_end_ok_lt {ts ts1 : List Tok} {sl : Bool}
    (h : tag_open_end ts = (.ok sl, ts1)) : ts1.length < ts.length := by
  unfold tag_open_end at h
  cases hpp : parsePunct '>' (peekSlash ts).2 with
  | mk r ts3 =>
    rw [hpp] at h
    cases r with
    | error e => simp at h
    | ok u =>
      simp at h
      obtain ⟨sp, hshape⟩ := parsePunct_ok_shape hpp
      have h2 := peekSlash_le ts
      rw [hshape] at h2
      rw [← h.2]
      simp at h2
      omega

theorem tag_open_end_err_le {ts ts1 : List Tok} {e : ParseErr}
    (h : tag_open_end ts = (.error e, ts1)) : ts1.length ≤ ts.length := by
  unfold tag_open_end at h
  cases hpp : parsePunct '>' (peekSlash ts).2 with
  | mk r ts3 =>
    rw [hpp] at h
    cases r with
    | ok u => simp at h
    | error e2 =>
      simp at h
      obtain ⟨h1, h2⟩ := h
      have he : (parsePunct '>' (peekSlash ts).2).1 = .error e2 := by rw [hpp]
      have hid := parsePunct_err_id he
      rw [hpp] at hid
      simp at hid
      have hlen : ts1.length = ts3.length := by rw [h2]
      have hlen2 : ts3.length = (peekSlash ts).2.length := by rw [hid]
      have h3 := peekSlash_le ts
      omega

theorem tag_close_le (ts : List Tok) : (tag_close ts).2.length ≤ ts.length := by
  unfold tag_close
  split
  · rename_i e ts1 heq
    have he : (parsePunct '<' ts).1 = .error e := by rw [heq]
    have hid := parsePunct_err_id he
    rw [heq] at hid
    simp at hid
    simp [hid]
  · rename_i u ts1 heq
    obtain ⟨sp, rfl⟩ := parsePunct_ok_shape heq
    split
    · rename_i e ts2 heq2
      have he : (parsePunct '/' ts1).1 = .error e := by rw [heq2]
      have hid := parsePunct_err_id he
      rw [heq2] at hid
      simp at hid
      simp [hid]
    · rename_i u2 ts2 heq2
      obtain ⟨sp2, rfl⟩ := parsePunct_ok_shape heq2
      split
      · rename_i e ts3 heq3
        have h3 := parseIdent_len ts2
        rw [heq3] at h3
        simp at h3 ⊢
        omega
      · rename_i id ts3 heq3
        obtain ⟨hshape, hkw⟩ := parseIdent_ok_shape heq3
        subst hshape
        split
        · rename_i e ts4 heq4
          have he : (parsePunct '>' ts3).1 = .error e := by rw [heq4]
          have hid := parsePunct_err_id he
          rw [heq4] at hid
          simp at hid
          simp [hid]
          omega
        · rename_i u4 ts4 heq4
          obtain ⟨sp4, rfl⟩ := parsePunct_ok_shape heq4
          simp
          omega

theorem attribute_le (ts : List Tok) : («attribute» ts).2.length ≤ ts.length := by
  unfold «attribute»
  split
  · rename_i e ts1 heq
    unfold parseIdentAny at heq
    cases ts with
    | nil => simp at heq; simp [← heq.2]
    | cons t rest =>
      cases t with
      | punct c2 sp => simp at heq; simp [← heq.2]
      | ident nm kw sp => simp at heq
      | lit v sp => simp at heq; simp [← heq.2]
      | group d inner sp => simp at heq; simp [← heq.2]
  · rename_i key ts1 heq
    have hshape := parseIdentAny_ok_shape heq
    subst hshape
    split
    · rename_i psp ts2
      split
      · rename_i e ts3 heq2
        by_cases hbr : peekBrace ts2
        · rw [if_pos hbr] at heq2
          have h3 := block_expr_le ts2
          rw [heq2] at h3
          simp at h3 ⊢
          omega
        · rw [if_neg hbr] at heq2
          have h3 := parseExprValue_le ts2
          rw [heq2] at h3
          simp at h3 ⊢
          omega
      · rename_i v ts3 heq2
        by_cases hbr : peekBrace ts2
        · rw [if_pos hbr] at heq2
          have h3 := block_expr_le ts2
          rw [heq2] at h3
          simp at h3 ⊢
          omega
        · rw [if_neg hbr] at heq2
          have h3 := parseExprValue_le ts2
          rw [heq2] at h3
          simp at h3 ⊢
          omega
    · simp

theorem attribute_ok_lt {ts ts1 : List Tok} {kv : String × Option Expr}
    (h : «attribute» ts = (.ok kv, ts1)) : ts1.length < ts.length := by
  unfold «attribute» at h
  split at h
  · exact absurd h (by simp)
  · rename_i key ts2 heq
    have hshape := parseIdentAny_ok_shape heq
    subst hshape
    split at h
    · rename_i psp ts3
      split at h
      · exact absurd h (by simp)
      · rename_i v ts4 heq2
        simp at h
        rw [← h.2]
        by_cases hbr : peekBrace ts3
        · rw [if_pos hbr] at heq2
          have h3 := block_expr_le ts3
          rw [heq2] at h3
          simp at h3 ⊢
          omega
        · rw [if_neg hbr] at heq2
          have h3 := parseExprValue_le ts3
          rw [heq2] at h3
          simp at h3 ⊢
          omega
    · simp at h
      rw [← h.2]
      simp

theorem attrScan_len : ∀ (fuel : Nat) (ts : List Tok) (r : Except ParseErr (List Tok × Bool) × List Tok),
    attrScan fuel ts = some r →
    (∀ buf sl ts1, r = (.ok (buf, sl), ts1) → buf.length + ts1.length < ts.length) ∧
    (∀ e ts1, r = (.error e, ts1) → ts1.length ≤ ts.length) := by
  intro fuel
  induction fuel with
  | zero => intro ts r h; simp [attrScan] at h
  | succ f ih =>
    intro ts r h
    simp only [attrScan] at h
    split at h
    · rename_i sl ts1 heq
      simp at h
      constructor
      · intro buf sl2 ts2 hr
        rw [← h] at hr
        simp at hr
        obtain ⟨⟨hbuf, hsl⟩, hts⟩ := hr
        have := tag_open_end_ok_lt heq
        subst hbuf
        subst hts
        simpa using this
      · intro e ts2 hr
        rw [← h] at hr
        simp at hr
    · rename_i e0 ts1 heq
      split at h
      · simp at h
        constructor
        · intro buf sl ts2 hr
          rw [← h] at hr
          simp at hr
        · intro e ts2 hr
          rw [← h] at hr
          simp at hr
          simp [hr.2]
      · rename_i t rest
        split at h
        · exact absurd h (by simp)
        · rename_i e ts2 heq2
          simp at h
          have hle := (ih rest _ heq2).2 e ts2 rfl
          have htoe := tag_open_end_err_le heq
          constructor
          · intro buf sl ts3 hr
            rw [← h] at hr
            simp at hr
          · intro e2 ts3 hr
            rw [← h] at hr
            simp at hr
            have hlen : ts3.length = ts2.length := by rw [hr.2]
            simp at htoe
            omega
        · rename_i buf sl ts2 heq2
          simp at h
          have hlt := (ih rest _ heq2).1 buf sl ts2 rfl
          have htoe := tag_open_end_err_le heq
          constructor
          · intro buf2 sl2 ts3 hr
            rw [← h] at hr
            simp at hr
            obtain ⟨⟨hbuf, hsl⟩, hts⟩ := hr
            subst hbuf
            subst hts
            simp at htoe ⊢
            omega
          · intro e2 ts3 hr
            rw [← h] at hr
            simp at hr

theorem attrScan_suff : ∀ (fuel : Nat) (ts : List Tok), ts.length + 1 ≤ fuel →
    (attrScan fuel ts).isSome = true := by
  intro fuel
  induction fuel with
  | zero => intro ts h; omega
  | succ f ih =>
    intro ts h
    simp only [attrScan]
    cases htoe : tag_open_end ts with
    | mk r ts1 =>
      cases r with
      | ok sl => simp
      | error e =>
        cases ts1 with
        | nil => simp
        | cons t rest =>
          have hle := tag_open_end_err_le htoe
          have hrec := ih rest (by simp at hle; omega)
          cases hscan : attrScan f rest with
          | none => rw [hscan] at hrec; simp at hrec
          | some r2 =>
            obtain ⟨r3, ts2⟩ := r2
            cases r3 with
            | error e2 => simp [hscan]
            | ok bufsl => obtain ⟨buf, sl⟩ := bufsl; simp [hscan]

theorem attrLoop_suff : ∀ (fuel : Nat) (ts : List Tok), ts.length + 1 ≤ fuel →
    (attrLoop fuel ts).isSome = true := by
  intro fuel
  induction fuel with
  | zero => intro ts h; omega
  | succ f ih =>
    intro ts h
    simp only [attrLoop]
    cases hat : «attribute» ts with
    | mk r ts1 =>
      cases r with
      | error e =>
        have h1 : («attribute» ts).1 = .error e := by rw [hat]
        simp [h1]
      | ok kv =>
        have h1 : («attribute» ts).1 = .ok kv := by rw [hat]
        simp only [h1, hat]
        obtain ⟨key, value⟩ := kv
        cases hemp : ts1.isEmpty with
        | true => simp
        | false =>
          simp only [hemp, Bool.false_eq_true, if_false]
          have hlt := attribute_ok_lt hat
          have hrec := ih ts1 (by omega)
          cases hloop : attrLoop f ts1 with
          | none => rw [hloop] at hrec; simp at hrec
          | some r2 =>
            obtain ⟨r3, ts2⟩ := r2
            cases r3 with
            | error e2 => simp
            | ok ns => simp

theorem attributes_suff (fuel : Nat) (ts : List Tok) (h : ts.length + 1 ≤ fuel) :
    (attributes fuel ts).isSome = true := by
  unfold attributes
  cases hemp : ts.isEmpty with
  | true => simp
  | false => simp [attrLoop_suff fuel ts h]

theorem parse2Attrs_suff (fuel : Nat) (buf : List Tok) (h : buf.length + 1 ≤ fuel) :
    (parse2Attrs fuel buf).isSome = true := by
  unfold parse2Attrs
  have hs := attributes_suff fuel buf h
  cases hat : attributes fuel buf with
  | none => rw [hat] at hs; simp at hs
  | some r =>
    obtain ⟨r1, ts1⟩ := r
    cases r1 with
    | error e => simp
    | ok ns => cases ts1 <;> simp

theorem tag_open_len : ∀ (fuel : Nat) (ts : List Tok) (r : Except ParseErr Tag × List Tok),
    tag_open fuel ts = some r →
    r.2.length ≤ ts.length ∧ (∀ tag, r.1 = .ok tag → r.2.length + 3 ≤ ts.length) := by
  intro fuel ts r h
  cases fuel with
  | zero => simp [tag_open] at h
  | succ f =>
    simp only [tag_open] at h
    split at h
    · rename_i e ts1 heq
      simp at h
      have he : (parsePunct '<' ts).1 = .error e := by rw [heq]
      have hid := parsePunct_err_id he
      rw [heq] at hid
      simp at hid
      rw [← h]
      subst hid
      exact ⟨le_refl _, by intro tag hr; simp at hr⟩
    · rename_i u ts1 heq
      obtain ⟨sp, rfl⟩ := parsePunct_ok_shape heq
      split at h
      · rename_i e ts2 heq2
        simp at h
        have h2 := parseIdent_len ts1
        rw [heq2] at h2
        rw [← h]
        exact ⟨by simp at h2 ⊢; omega, by intro tag hr; simp at hr⟩
      · rename_i id ts2 heq2
        obtain ⟨hshape, hkw⟩ := parseIdent_ok_shape heq2
        subst hshape
        split at h
        · exact absurd h (by simp)
        · rename_i e ts3 heq3
          simp at h
          have h2 := (attrScan_len f ts2 _ heq3).2 e ts3 rfl
          rw [← h]
          exact ⟨by simp; omega, by intro tag hr; simp at hr⟩
        · rename_i buf sl ts3 heq3
          have h2 := (attrScan_len f ts2 _ heq3).1 buf sl ts3 rfl
          split at h
          · exact absurd h (by simp)
          · rename_i e heq4
            simp at h
            rw [← h]
            exact ⟨by simp; omega, by intro tag hr; simp at hr⟩
          · rename_i attrs heq4
            simp at h
            rw [← h]
            refine ⟨by simp; omega, by intro tag hr; simp; omega⟩

theorem tag_open_suff : ∀ (fuel : Nat) (ts : List Tok), ts.length + 2 ≤ fuel →
    (tag_open fuel ts).isSome = true := by
  intro fuel ts h
  cases fuel with
  | zero => omega
  | succ f =>
    simp only [tag_open]
    cases hpp : parsePunct '<' ts with
    | mk r1 ts1 =>
      cases r1 with
      | error e => simp
      | ok u =>
        obtain ⟨sp, hshape⟩ := parsePunct_ok_shape hpp
        subst hshape
        cases hpi : parseIdent ts1 with
        | mk r2 ts2 =>
          cases r2 with
          | error e => simp [hpi]
          | ok id =>
            obtain ⟨hshape2, hkw⟩ := parseIdent_ok_shape hpi
            subst hshape2
            have hscan := attrScan_suff f ts2 (by simp at h; omega)
            cases hsc : attrScan f ts2 with
            | none => rw [hsc] at hscan; simp at hscan
            | some r3 =>
              obtain ⟨r4, ts3⟩ := r3
              cases r4 with
              | error e => simp [hpi, hsc]
              | ok bufsl =>
                obtain ⟨buf, sl⟩ := bufsl
                have hlen := (attrScan_len f ts2 _ hsc).1 buf sl ts3 rfl
                have hp2 := parse2Attrs_suff f buf (by simp at h; omega)
                cases hpa : parse2Attrs f buf with
                | none => rw [hpa] at hp2; simp at hp2
                | some r5 =>
                  cases r5 with
                  | error e => simp [hpi, hsc, hpa]
                  | ok attrs => simp [hpi, hsc, hpa]

theorem parse_consume : ∀ fuel : Nat,
    (∀ (fl : Bool) (ts : List Tok) (r : Except ParseErr (List Node) × List Tok),
      node fl fuel ts = some r →
      r.2.length ≤ ts.length ∧ (∀ ns, r.1 = .ok ns → r.2.length < ts.length)) ∧
    (∀ (fl : Bool) (ts : List Tok) (r : Except ParseErr Node × List Tok),
      element fl fuel ts = some r →
      r.2.length ≤ ts.length ∧ (∀ nd, r.1 = .ok nd → r.2.length < ts.length)) ∧
    (∀ (fl : Bool) (tag : Tag) (ts : List Tok) (r : Except ParseErr (List Node) × List Tok),
      childLoop fl fuel tag ts = some r → r.2.length ≤ ts.length) := by
  intro fuel
  induction fuel with
  | zero =>
    exact ⟨fun fl ts r h => by simp [node] at h,
           fun fl ts r h => by simp [element] at h,
           fun fl tag ts r h => by simp [childLoop] at h⟩
  | succ f ih =>
    obtain ⟨ihn, ihe, ihc⟩ := ih
    refine ⟨?_, ?_, ?_⟩
    · intro fl ts r h
      simp only [node] at h
      split at h
      · exact absurd h (by simp)
      · rename_i e ts1 heq
        simp at h
        rw [← h]
        refine ⟨?_, by intro ns hr; simp at hr⟩
        simp only
        split at heq
        · rename_i htx
          simp at heq
          have h2 := text_le ts
          rw [heq] at h2
          simpa using h2
        · split at heq
          · rename_i hbx
            simp at heq
            have h2 := block_le ts
            rw [heq] at h2
            simpa using h2
          · exact (ihe fl ts _ heq).1
      · rename_i nd ts1 heq
        simp at h
        rw [← h]
        simp only
        have hlt : ts1.length < ts.length := by
          split at heq
          · rename_i htx
            simp at heq
            exact text_ok_lt heq
          · split at heq
            · rename_i hbx
              simp at heq
              exact block_ok_lt heq
            · exact (ihe fl ts _ heq).2 nd rfl
        exact ⟨le_of_lt hlt, fun ns hr => hlt⟩
    · intro fl ts r h
      simp only [element] at h
      split at h
      · simp at h
        rw [← h]
        exact ⟨le_refl _, by intro nd hr; simp at hr⟩
      · split at h
        · exact absurd h (by simp)
        · rename_i e ts1 heq
          simp at h
          rw [← h]
          have := (tag_open_len f ts _ heq).1
          exact ⟨this, by intro nd hr; simp at hr⟩
        · rename_i tag ts1 heq
          have hopen := (tag_open_len f ts _ heq).2 tag rfl
          split at h
          · simp at h
            rw [← h]
            exact ⟨by simp at hopen ⊢; omega, by intro nd hr; simp at hopen ⊢; omega⟩
          · split at h
            · exact absurd h (by simp)
            · rename_i e ts2 heq2
              simp at h
              rw [← h]
              have := ihc fl tag ts1 _ heq2
              exact ⟨by simp at this hopen ⊢; omega, by intro nd hr; simp at hr⟩
            · rename_i cs ts2 heq2
              have hchild := ihc fl tag ts1 _ heq2
              split at h
              · rename_i e ts3 heq3
                simp at h
                rw [← h]
                have := tag_close_le ts2
                rw [heq3] at this
                exact ⟨by simp at this hchild hopen ⊢; omega, by intro nd hr; simp at hr⟩
              · rename_i u ts3 heq3
                simp at h
                rw [← h]
                have := tag_close_le ts2
                rw [heq3] at this
                refine ⟨by simp at this hchild hopen ⊢; omega,
                        fun nd hr => by simp at this hchild hopen ⊢; omega⟩
    · intro fl tag ts r h
      simp only [childLoop] at h
      split at h
      · have h2 := Option.some_inj.mp h
        rw [← h2]
      · have h2 := Option.some_inj.mp h
        rw [← h2]
      · split at h
        · exact absurd h (by simp)
        · rename_i e ts1 heq
          simp at h
          rw [← h]
          exact (ihn fl ts _ heq).1
        · rename_i ns ts1 heq
          have hnode := (ihn fl ts _ heq).1
          split at h
          · exact absurd h (by simp)
          · rename_i e ts2 heq2
            simp at h
            rw [← h]
            have := ihc fl tag ts1 _ heq2
            simp at this hnode ⊢
            omega
          · rename_i ns2 ts2 heq2
            simp at h
            rw [← h]
            have := ihc fl tag ts1 _ heq2
            simp at this hnode ⊢
            omega

theorem parse_suff : ∀ fuel : Nat,
    (∀ (fl : Bool) (ts : List Tok), 2 * ts.length + 5 ≤ fuel →
      (node fl fuel ts).isSome = true) ∧
    (∀ (fl : Bool) (ts : List Tok), 2 * ts.length + 4 ≤ fuel →
      (element fl fuel ts).isSome = true) ∧
    (∀ (fl : Bool) (tag : Tag) (ts : List Tok), 2 * ts.length + 6 ≤ fuel →
      (childLoop fl fuel tag ts).isSome = true) := by
  intro fuel
  induction fuel with
  | zero =>
    exact ⟨fun fl ts h => by omega, fun fl ts h => by omega, fun fl tag ts h => by omega⟩
  | succ f ih =>
    obtain ⟨ihn, ihe, ihc⟩ := ih
    refine ⟨?_, ?_, ?_⟩
    · intro fl ts h
      simp only [node]
      cases htx : exOk (text ts).1 with
      | true =>
        simp only [htx, if_true]
        cases htr : text ts with
        | mk r1 ts1 => cases r1 <;> simp
      | false =>
        simp only [htx, Bool.false_eq_true, if_false]
        cases hbx : exOk (block ts).1 with
        | true =>
          simp only [hbx, if_true]
          cases hbr : block ts with
          | mk r1 ts1 => cases r1 <;> simp
        | false =>
          simp only [hbx, Bool.false_eq_true, if_false]
          have he := ihe fl ts (by omega)
          cases her : element fl f ts with
          | none => rw [her] at he; simp at he
          | some r =>
            obtain ⟨r1, ts1⟩ := r
            cases r1 <;> simp [her]
    · intro fl ts h
      simp only [element]
      cases hc : (tag_close ts).1 with
      | ok cid => simp
      | error e0 =>
        have hto := tag_open_suff f ts (by omega)
        cases her : tag_open f ts with
        | none => rw [her] at hto; simp at hto
        | some r =>
          obtain ⟨r1, ts1⟩ := r
          cases r1 with
          | error e => simp [her]
          | ok tag =>
            have hlen := (tag_open_len f ts _ her).2 tag rfl
            simp only [her]
            cases hsc : tag.selfclosing with
            | true => simp
            | false =>
              simp only [hsc, Bool.false_eq_true, if_false]
              have hcl := ihc fl tag ts1 (by simp at hlen; omega)
              cases hclr : childLoop fl f tag ts1 with
              | none => rw [hclr] at hcl; simp at hcl
              | some r2 =>
                obtain ⟨r3, ts2⟩ := r2
                cases r3 with
                | error e => simp [hclr]
                | ok cs =>
                  cases htc : tag_close ts2 with
                  | mk r4 ts3 => cases r4 <;> simp [hclr, htc]
    · intro fl tag ts h
      simp only [childLoop]
      cases hh : has_child_nodes tag ts with
      | error e => simp
      | ok b =>
        cases b with
        | false => simp
        | true =>
          have hn := ihn fl ts (by omega)
          cases hnr : node fl f ts with
          | none => rw [hnr] at hn; simp at hn
          | some r =>
            obtain ⟨r1, ts1⟩ := r
            cases r1 with
            | error e => simp [hnr]
            | ok ns =>
              have hlt := ((parse_consume f).1 fl ts _ hnr).2 ns rfl
              have hcl := ihc fl tag ts1 (by simp at hlt; omega)
              cases hclr : childLoop fl f tag ts1 with
              | none => rw [hclr] at hcl; simp at hcl
              | some r2 =>
                obtain ⟨r3, ts2⟩ := r2
                cases r3 <;> simp [hnr, hclr]

theorem parseLoop_suff : ∀ (fuel : Nat) (fl : Bool) (ts : List Tok),
    2 * ts.length + 7 ≤ fuel → (parseLoop fl fuel ts).isSome = true := by
  intro fuel
  induction fuel with
  | zero => intro fl ts h; omega
  | succ f ih =>
    intro fl ts h
    simp only [parseLoop]
    cases hemp : ts.isEmpty with
    | true => simp
    | false =>
      simp only [hemp, Bool.false_eq_true, if_false]
      have hn := (parse_suff f).1 fl ts (by omega)
      cases hnr : node fl f ts with
      | none => rw [hnr] at hn; simp at hn
      | some r =>
        obtain ⟨r1, ts1⟩ := r
        cases r1 with
        | error e => simp
        | ok ns =>
          have hlt := ((parse_consume f).1 fl ts _ hnr).2 ns rfl
          have hrec := ih fl ts1 (by simp at hlt; omega)
          cases hpr : parseLoop fl f ts1 with
          | none => rw [hpr] at hrec; simp at hrec
          | some r2 =>
            obtain ⟨r3, ts2⟩ := r2
            cases r3 <;> simp [hpr]

/-- C9 counterexample: not every grammar rule fails without consuming
when it does not commit — `tag_close` on a lone `<` consumes the `<`
and then fails at end of input, leaving the cursor advanced. -/
theorem tag_close_consumes_on_failure :
    tag_close [Tok.punct '<' 9] = (.error ⟨none, "unexpected end of input"⟩, []) ∧
    ([] : List Tok) ≠ [Tok.punct '<' 9] :=
  ⟨rfl, by simp⟩

/-- C9 amended: parsing always terminates for every finite token
stream — fuel linear in the input length (`2·|ts| + 8`) never runs out,
so the top-level parse loop and the element child loop are bounded by
the input length — because every success the dispatcher commits
consumes at least one token and no rule ever grows the stream; a rule
that does not commit may, however, consume a prefix before failing
(see `tag_close_consumes_on_failure`), which never threatens the
bound. -/
theorem parser_terminates :
    (∀ (fl : Bool) (ts : List Tok) (fuel : Nat), 2 * ts.length + 8 ≤ fuel →
      (parse fl fuel ts).isSome = true) ∧
    (∀ (fl : Bool) (fuel : Nat) (ts ts1 : List Tok) (ns : List Node),
      node fl fuel ts = some (.ok ns, ts1) → ts1.length < ts.length) ∧
    (∀ (fl : Bool) (fuel : Nat) (ts : List Tok)
      (r : Except ParseErr (List Node) × List Tok),
      node fl fuel ts = some r → r.2.length ≤ ts.length) :=
  ⟨fun fl ts fuel h => parseLoop_suff fuel fl ts (by omega),
   fun fl fuel ts ts1 ns h => ((parse_consume fuel).1 fl ts _ h).2 ns rfl,
   fun fl fuel ts r h => ((parse_consume fuel).1 fl ts r h).1⟩

/-- Witness for C9's amended claim: termination of the parse of `<a/>`
at the linear fuel bound, strict consumption of a committed text node,
and the no-growth bound at a failing dispatch. -/
theorem parser_terminates_witness :
    (parse false 16 sampleSelfClosing).isSome = true ∧
    ([] : List Tok).length < [Tok.lit "1" 0].length ∧
    ([] : List Tok).length ≤ [Tok.punct '<' 0].length :=
  ⟨parser_terminates.1 false sampleSelfClosing 16 (by decide),
   parser_terminates.2.1 false 1 [Tok.lit "1" 0] []
     [Node.mk "#text" (some (.lit "1")) .text [] []] rfl,
   parser_terminates.2.2 false 5 [Tok.punct '<' 0]
     (.error ⟨none, "expected identifier"⟩, []) rfl⟩
